import Mathlib

/-!
Verification of the countdown-numbers-solver core
(`src/compute.rs`, `src/util.rs`, `src/main.rs`), shallowly embedded in Lean.

Rust `u32` values are modelled as `Nat`; the wrapping behaviour of `u32`
addition and multiplication is made explicit with `% 2 ^ 32`.  Rust `Vec`
stacks (push/pop at the end) are modelled as Lean lists with the head as the
top of the stack, so `operand1` (the first `pop`) is the head and `operand0`
the second element.
-/

/-- The `u32` modulus. -/
def u32Mod : Nat := 2 ^ 32

/-- A single operation (`util.rs`, enum `Op`). -/
inductive Op : Type
  | Add
  | Sub
  | Mul
  | Div
deriving DecidableEq, Repr

/-- An atomic unit in a postfix-order expression (`util.rs`, enum `Token`). -/
inductive Token : Type
  | Num (n : Nat)
  | Op (o : Op)
deriving DecidableEq, Repr

/-- A sequence of tokens representing a postfix expression (`compute.rs`). -/
abbrev PostfixSequence : Type := List Token

/-- The fixed operator enumeration order produced by `Op::iter()`
(`strum::EnumIter` yields declaration order: Add, Sub, Mul, Div). -/
def ops_in_order : List Op := [Op.Add, Op.Sub, Op.Mul, Op.Div]

/-- `compute.rs` `try_apply_legal`: push a number unconditionally; apply an
operator only when the stack holds at least two values, with Sub requiring
`operand0 > operand1` and Div requiring a nonzero, exactly-dividing divisor.
`u32` addition and multiplication wrap modulo `2 ^ 32`. -/
def try_apply_legal : List Nat → Token → Option (List Nat)
  | stack, Token.Num n => some (n :: stack)
  | operand1 :: operand0 :: rest, Token.Op op =>
    match op with
    | Op.Add => some ((operand0 + operand1) % u32Mod :: rest)
    | Op.Sub =>
      if operand0 ≤ operand1 then none
      else some ((operand0 - operand1) :: rest)
    | Op.Mul => some ((operand0 * operand1) % u32Mod :: rest)
    | Op.Div =>
      if operand1 = 0 ∨ operand0 % operand1 ≠ 0 then none
      else some ((operand0 / operand1) :: rest)
  | _, Token.Op _ => none

/-- `compute.rs` `try_apply_sensible`: additionally rejects a zero number
token, Add and Mul with `operand0 < operand1`, Mul with a 1 operand, and Div
with divisor at most 1; Sub is rejected when `operand0 < operand1`. -/
def try_apply_sensible : List Nat → Token → Option (List Nat)
  | stack, Token.Num n =>
    if n = 0 then none else some (n :: stack)
  | operand1 :: operand0 :: rest, Token.Op op =>
    match op with
    | Op.Add =>
      if operand0 < operand1 then none
      else some ((operand0 + operand1) % u32Mod :: rest)
    | Op.Sub =>
      if operand0 < operand1 then none
      else some ((operand0 - operand1) :: rest)
    | Op.Mul =>
      if operand0 = 1 ∨ operand1 = 1 ∨ operand0 < operand1 then none
      else some ((operand0 * operand1) % u32Mod :: rest)
    | Op.Div =>
      if operand1 ≤ 1 ∨ operand0 % operand1 ≠ 0 then none
      else some ((operand0 / operand1) :: rest)
  | _, Token.Op _ => none

/-- Policy dispatch as performed at every step of the search in `compute.rs`:
`dumb` selects `try_apply_legal`, otherwise `try_apply_sensible`. -/
def try_apply (dumb : Bool) (stack : List Nat) (t : Token) : Option (List Nat) :=
  if dumb then try_apply_legal stack t else try_apply_sensible stack t

/-- `Vec::swap_remove(idx)`: replace position `idx` with the last element and
remove the last element. -/
def swap_remove (l : List Nat) (idx : Nat) : List Nat :=
  (l.set idx (l.getLast?.getD 0)).dropLast

theorem swap_remove_length (l : List Nat) (idx : Nat) :
    (swap_remove l idx).length = l.length - 1 := by
  simp [swap_remove]

theorem try_apply_num_eq {dumb : Bool} {stack s' : List Nat} {n : Nat}
    (h : try_apply dumb stack (Token.Num n) = some s') : s' = n :: stack := by
  cases dumb <;>
    simp only [try_apply, try_apply_legal, try_apply_sensible, Bool.false_eq_true,
      reduceIte, Option.ite_none_left_eq_some, Option.some.injEq] at h
  · exact h.2.symm
  · exact h.symm

/-- Full characterisation of a successful operator application: the stack had
at least two values, Sub never underflows, Div never divides by zero nor
truncates, and Add/Mul wrap modulo `2 ^ 32`. -/
theorem try_apply_op_eq {dumb : Bool} {stack s' : List Nat} {o : Op}
    (h : try_apply dumb stack (Token.Op o) = some s') :
    ∃ a b rest, stack = b :: a :: rest ∧
      (match o with
       | Op.Add => s' = (a + b) % u32Mod :: rest
       | Op.Sub => b ≤ a ∧ s' = (a - b) :: rest
       | Op.Mul => s' = (a * b) % u32Mod :: rest
       | Op.Div => b ≠ 0 ∧ a % b = 0 ∧ s' = (a / b) :: rest) := by
  match stack with
  | [] => cases dumb <;> simp [try_apply, try_apply_legal, try_apply_sensible] at h
  | [x] => cases dumb <;> simp [try_apply, try_apply_legal, try_apply_sensible] at h
  | b :: a :: rest =>
    refine ⟨a, b, rest, rfl, ?_⟩
    cases dumb <;> cases o <;>
      simp only [try_apply, try_apply_legal, try_apply_sensible, Bool.false_eq_true,
        reduceIte, Option.ite_none_left_eq_some, Option.some.injEq, not_or, not_lt,
        not_le, ne_eq, Decidable.not_not] at h <;>
      simp only [] <;>
      first
        | exact h.symm
        | exact h.2.symm
        | exact ⟨le_of_lt h.1, h.2.symm⟩
        | exact ⟨h.1, h.2.symm⟩
        | exact ⟨h.1.1, h.1.2, h.2.symm⟩
        | exact ⟨by omega, h.1.2, h.2.symm⟩

theorem mem_enum_idx_lt {numbers : List Nat} {p : Nat × Nat} (h : p ∈ numbers.enum) :
    p.1 < numbers.length := by
  rw [List.mem_enum_iff_getElem?] at h
  exact (List.getElem?_eq_some.mp h).1

theorem try_apply_op_length {dumb : Bool} {stack s' : List Nat} {o : Op}
    (h : try_apply dumb stack (Token.Op o) = some s') : s'.length + 1 = stack.length := by
  obtain ⟨a, b, rest, hstack, hres⟩ := try_apply_op_eq h
  cases o <;> simp only [] at hres <;>
    first
      | (rw [hstack, hres]; rfl)
      | (rw [hstack, hres.2]; rfl)
      | (rw [hstack, hres.2.2]; rfl)

/-- The number-extension candidates at one node of the search: Rust's
`numbers.iter().enumerate().filter_map(|(idx, &num)| try_apply(stack.clone(), num.into()).map(|sub_stack| (idx, num, sub_stack)))`. -/
def number_candidates (dumb : Bool) (stack : List Nat) (numbers : List Nat) :
    List (Nat × Nat × List Nat) :=
  numbers.enum.filterMap fun p =>
    (try_apply dumb stack (Token.Num p.2)).map fun sub_stack => (p.1, p.2, sub_stack)

/-- The operator-extension candidates at one node of the search: Rust's
`Op::iter().filter_map(|op| try_apply(stack.clone(), op.into()).map(|sub_stack| (op, sub_stack)))`. -/
def operation_candidates (dumb : Bool) (stack : List Nat) : List (Op × List Nat) :=
  ops_in_order.filterMap fun op =>
    (try_apply dumb stack (Token.Op op)).map fun sub_stack => (op, sub_stack)

theorem mem_number_candidates {dumb : Bool} {stack numbers : List Nat}
    {c : Nat × Nat × List Nat} (h : c ∈ number_candidates dumb stack numbers) :
    c.1 < numbers.length ∧ try_apply dumb stack (Token.Num c.2.1) = some c.2.2 := by
  rw [number_candidates, List.mem_filterMap] at h
  obtain ⟨p, hp, hmap⟩ := h
  rw [Option.map_eq_some'] at hmap
  obtain ⟨sub, htry, heq⟩ := hmap
  obtain ⟨c1, c2, c3⟩ := c
  cases heq
  exact ⟨mem_enum_idx_lt hp, htry⟩

theorem mem_operation_candidates {dumb : Bool} {stack : List Nat}
    {c : Op × List Nat} (h : c ∈ operation_candidates dumb stack) :
    try_apply dumb stack (Token.Op c.1) = some c.2 := by
  rw [operation_candidates, List.mem_filterMap] at h
  obtain ⟨op, _, hmap⟩ := h
  rw [Option.map_eq_some'] at hmap
  obtain ⟨sub, htry, heq⟩ := hmap
  obtain ⟨c1, c2⟩ := c
  cases heq
  exact htry

/-- `compute.rs` `calc_postfix_sequences_all_recurse`.  The Rust function
returns a `HashSet<PostfixSequence>`; the set is modelled by a list, with set
membership as the interface (the list may repeat an element that the hash set
would collapse, which is irrelevant to membership).  The current history is
recorded when the stack holds exactly the target; then every still-remaining
number (in positional order, removed by `swap_remove`) and every operator (in
`Op::iter()` order) that `try_apply` accepts is recursed into, and all results
are combined.  (`attach` only carries the membership facts needed by the
termination proof.) -/
def calc_postfix_sequences_all_recurse (numbers : List Nat) (target : Nat) (dumb : Bool)
    (stack : List Nat) (history : PostfixSequence) : List PostfixSequence :=
  (if stack = [target] then [history] else []) ++
  (((number_candidates dumb stack numbers).attach.flatMap fun c =>
    calc_postfix_sequences_all_recurse (swap_remove numbers c.1.1) target dumb c.1.2.2
      (history ++ [Token.Num c.1.2.1])) ++
  ((operation_candidates dumb stack).attach.flatMap fun c =>
    calc_postfix_sequences_all_recurse numbers target dumb c.1.2
      (history ++ [Token.Op c.1.1])))
termination_by 2 * numbers.length + stack.length
decreasing_by
  · obtain ⟨hidx, htry⟩ := mem_number_candidates c.2
    have hlen : c.1.2.2.length = stack.length + 1 := by rw [try_apply_num_eq htry]; rfl
    rw [swap_remove_length]
    omega
  · have hlen := try_apply_op_length (mem_operation_candidates c.2)
    omega

/-- `compute.rs` `calc_postfix_sequences_all`: run the recursion with an empty
stack and empty history. -/
def calc_postfix_sequences_all (numbers : List Nat) (target : Nat) (dumb : Bool) :
    List PostfixSequence :=
  calc_postfix_sequences_all_recurse numbers target dumb [] []

/-- `compute.rs` `calc_postfix_sequences_first_recurse`: identical exploration
order, but the current history is returned as soon as the stack holds exactly
the target, number extensions are tried before operator extensions, and the
first solution found short-circuits the search. -/
def calc_postfix_sequences_first_recurse (numbers : List Nat) (target : Nat) (dumb : Bool)
    (stack : List Nat) (history : PostfixSequence) : Option PostfixSequence :=
  if stack = [target] then some history
  else
    match (number_candidates dumb stack numbers).attach.findSome? (fun c =>
      calc_postfix_sequences_first_recurse (swap_remove numbers c.1.1) target dumb c.1.2.2
        (history ++ [Token.Num c.1.2.1])) with
    | some s => some s
    | none =>
      (operation_candidates dumb stack).attach.findSome? (fun c =>
        calc_postfix_sequences_first_recurse numbers target dumb c.1.2
          (history ++ [Token.Op c.1.1]))
termination_by 2 * numbers.length + stack.length
decreasing_by
  · obtain ⟨hidx, htry⟩ := mem_number_candidates c.2
    have hlen : c.1.2.2.length = stack.length + 1 := by rw [try_apply_num_eq htry]; rfl
    rw [swap_remove_length]
    omega
  · have hlen := try_apply_op_length (mem_operation_candidates c.2)
    omega

/-- `compute.rs` `calc_postfix_sequences_first`. -/
def calc_postfix_sequences_first (numbers : List Nat) (target : Nat) (dumb : Bool) :
    Option PostfixSequence :=
  calc_postfix_sequences_first_recurse numbers target dumb [] []

theorem attach_flatMap {α β : Type} (l : List α) (f : α → List β) :
    (l.attach.flatMap fun p => f p.1) = l.flatMap f := by
  induction l with
  | nil => rfl
  | cons a t ih =>
    rw [List.attach_cons, List.flatMap_cons, List.flatMap_map, List.flatMap_cons, ← ih]

theorem attach_findSome? {α β : Type} (l : List α) (f : α → Option β) :
    (l.attach.findSome? fun p => f p.1) = l.findSome? f := by
  induction l with
  | nil => rfl
  | cons a t ih =>
    rw [List.attach_cons, List.findSome?_cons, List.findSome?_cons]
    cases f a with
    | some b => rfl
    | none =>
      simp only [List.findSome?_map]
      rw [← ih]
      rfl

theorem flatMap_congr_mem {α β : Type} {l : List α} {f g : α → List β}
    (h : ∀ a ∈ l, f a = g a) : l.flatMap f = l.flatMap g := by
  induction l with
  | nil => rfl
  | cons a t ih =>
    rw [List.flatMap_cons, List.flatMap_cons, h a (List.mem_cons_self a t),
      ih fun x hx => h x (List.mem_cons_of_mem a hx)]

theorem findSome?_congr_mem {α β : Type} {l : List α} {f g : α → Option β}
    (h : ∀ a ∈ l, f a = g a) : l.findSome? f = l.findSome? g := by
  induction l with
  | nil => rfl
  | cons a t ih =>
    rw [List.findSome?_cons, List.findSome?_cons, h a (List.mem_cons_self a t),
      ih fun x hx => h x (List.mem_cons_of_mem a hx)]

/-- Structurally recursive twin of `calc_postfix_sequences_all_recurse`, used
to evaluate the search on concrete inputs and to carry its inductive
invariants (the well-founded original does not reduce in the kernel).
`calc_all_fuel_eq` proves it agrees with the original whenever the fuel
exceeds the termination measure. -/
def calc_all_fuel : Nat → List Nat → Nat → Bool → List Nat → PostfixSequence →
    List PostfixSequence
  | 0, _, _, _, _, _ => []
  | fuel + 1, numbers, target, dumb, stack, history =>
    (if stack = [target] then [history] else []) ++
    (((number_candidates dumb stack numbers).flatMap fun c =>
      calc_all_fuel fuel (swap_remove numbers c.1) target dumb c.2.2
        (history ++ [Token.Num c.2.1])) ++
    ((operation_candidates dumb stack).flatMap fun c =>
      calc_all_fuel fuel numbers target dumb c.2 (history ++ [Token.Op c.1])))

/-- Structurally recursive twin of `calc_postfix_sequences_first_recurse`. -/
def calc_first_fuel : Nat → List Nat → Nat → Bool → List Nat → PostfixSequence →
    Option PostfixSequence
  | 0, _, _, _, _, _ => none
  | fuel + 1, numbers, target, dumb, stack, history =>
    if stack = [target] then some history
    else
      match (number_candidates dumb stack numbers).findSome? (fun c =>
        calc_first_fuel fuel (swap_remove numbers c.1) target dumb c.2.2
          (history ++ [Token.Num c.2.1])) with
      | some s => some s
      | none =>
        (operation_candidates dumb stack).findSome? (fun c =>
          calc_first_fuel fuel numbers target dumb c.2 (history ++ [Token.Op c.1]))

theorem calc_all_fuel_eq : ∀ (fuel : Nat) (numbers : List Nat) (target : Nat) (dumb : Bool)
    (stack : List Nat) (history : PostfixSequence),
    2 * numbers.length + stack.length < fuel →
    calc_all_fuel fuel numbers target dumb stack history =
      calc_postfix_sequences_all_recurse numbers target dumb stack history := by
  intro fuel
  induction fuel with
  | zero => intro numbers target dumb stack history h; omega
  | succ fuel ih =>
    intro numbers target dumb stack history h
    rw [calc_postfix_sequences_all_recurse,
      attach_flatMap (number_candidates dumb stack numbers)
        (fun c => calc_postfix_sequences_all_recurse (swap_remove numbers c.1) target dumb c.2.2
          (history ++ [Token.Num c.2.1])),
      attach_flatMap (operation_candidates dumb stack)
        (fun c => calc_postfix_sequences_all_recurse numbers target dumb c.2
          (history ++ [Token.Op c.1])),
      calc_all_fuel]
    congr 1
    congr 1
    · apply flatMap_congr_mem
      intro c hc
      obtain ⟨hidx, htry⟩ := mem_number_candidates hc
      apply ih
      have hlen : c.2.2.length = stack.length + 1 := by rw [try_apply_num_eq htry]; rfl
      rw [swap_remove_length]
      omega
    · apply flatMap_congr_mem
      intro c hc
      have hlen := try_apply_op_length (mem_operation_candidates hc)
      apply ih
      omega

theorem calc_first_fuel_eq : ∀ (fuel : Nat) (numbers : List Nat) (target : Nat) (dumb : Bool)
    (stack : List Nat) (history : PostfixSequence),
    2 * numbers.length + stack.length < fuel →
    calc_first_fuel fuel numbers target dumb stack history =
      calc_postfix_sequences_first_recurse numbers target dumb stack history := by
  intro fuel
  induction fuel with
  | zero => intro numbers target dumb stack history h; omega
  | succ fuel ih =>
    intro numbers target dumb stack history h
    rw [calc_postfix_sequences_first_recurse,
      attach_findSome? (number_candidates dumb stack numbers)
        (fun c => calc_postfix_sequences_first_recurse (swap_remove numbers c.1) target dumb c.2.2
          (history ++ [Token.Num c.2.1])),
      attach_findSome? (operation_candidates dumb stack)
        (fun c => calc_postfix_sequences_first_recurse numbers target dumb c.2
          (history ++ [Token.Op c.1])),
      calc_first_fuel]
    have hnum : ((number_candidates dumb stack numbers).findSome? fun c =>
        calc_first_fuel fuel (swap_remove numbers c.1) target dumb c.2.2
          (history ++ [Token.Num c.2.1])) =
        (number_candidates dumb stack numbers).findSome? fun c =>
          calc_postfix_sequences_first_recurse (swap_remove numbers c.1) target dumb c.2.2
            (history ++ [Token.Num c.2.1]) := by
      apply findSome?_congr_mem
      intro c hc
      obtain ⟨hidx, htry⟩ := mem_number_candidates hc
      apply ih
      have hlen : c.2.2.length = stack.length + 1 := by rw [try_apply_num_eq htry]; rfl
      rw [swap_remove_length]
      omega
    have hop : ((operation_candidates dumb stack).findSome? fun c =>
        calc_first_fuel fuel numbers target dumb c.2 (history ++ [Token.Op c.1])) =
        (operation_candidates dumb stack).findSome? fun c =>
          calc_postfix_sequences_first_recurse numbers target dumb c.2
            (history ++ [Token.Op c.1]) := by
      apply findSome?_congr_mem
      intro c hc
      have hlen := try_apply_op_length (mem_operation_candidates hc)
      apply ih
      omega
    rw [hnum, hop]

/-- The list of values of the `Num` tokens of a sequence. -/
def num_tokens (seq : PostfixSequence) : List Nat :=
  seq.filterMap fun t =>
    match t with
    | Token.Num n => some n
    | Token.Op _ => none

/-- Replay a whole sequence through `try_apply` starting from the empty stack;
this is exactly the stack the search carries alongside `history`. -/
def runSeq (dumb : Bool) (seq : PostfixSequence) : Option (List Nat) :=
  seq.foldlM (try_apply dumb) []

theorem runSeq_append_single (dumb : Bool) (h : PostfixSequence) (t : Token) :
    runSeq dumb (h ++ [t]) = (runSeq dumb h).bind fun s => try_apply dumb s t := by
  rw [runSeq, runSeq, List.foldlM_append]
  cases h.foldlM (try_apply dumb) [] with
  | none => rfl
  | some s =>
    show List.foldlM (try_apply dumb) s [t] = try_apply dumb s t
    rw [List.foldlM_cons]
    cases try_apply dumb s t with
    | none => rfl
    | some s' => rfl

theorem num_tokens_append_num (h : PostfixSequence) (n : Nat) :
    num_tokens (h ++ [Token.Num n]) = num_tokens h ++ [n] := by
  rw [num_tokens, num_tokens, List.filterMap_append]
  rfl

theorem num_tokens_append_op (h : PostfixSequence) (o : Op) :
    num_tokens (h ++ [Token.Op o]) = num_tokens h := by
  rw [num_tokens, num_tokens, List.filterMap_append, List.append_right_eq_self]
  rfl

theorem last_cons_dropLast_perm : ∀ (t : List Nat), t ≠ [] →
    (t.getLast?.getD 0 :: t.dropLast).Perm t := by
  intro t ht
  rw [List.getLast?_eq_getLast t ht]
  show (t.getLast ht :: t.dropLast).Perm t
  have h2 : (t.getLast ht :: (t.dropLast ++ [])).Perm (t.dropLast ++ [t.getLast ht]) :=
    List.perm_middle.symm
  rw [List.append_nil] at h2
  exact h2.trans (List.Perm.of_eq (List.dropLast_concat_getLast ht))

theorem swap_remove_perm : ∀ (l : List Nat) (idx : Nat) (n : Nat),
    l[idx]? = some n → (n :: swap_remove l idx).Perm l := by
  intro l
  induction l with
  | nil => intro idx n h; simp at h
  | cons a t ih =>
    intro idx n h
    match idx with
    | 0 =>
      rw [List.getElem?_cons_zero, Option.some.injEq] at h
      subst h
      match t with
      | [] => exact List.Perm.refl _
      | b :: t' =>
        show (a :: swap_remove (a :: b :: t') 0).Perm (a :: b :: t')
        apply List.Perm.cons
        rw [swap_remove, List.getLast?_cons_cons, List.set_cons_zero,
          List.dropLast_cons_of_ne_nil (List.cons_ne_nil b t')]
        exact last_cons_dropLast_perm (b :: t') (List.cons_ne_nil b t')
    | idx' + 1 =>
      rw [List.getElem?_cons_succ] at h
      have ht : t ≠ [] := by
        intro he
        rw [he] at h
        simp at h
      have hsw : swap_remove (a :: t) (idx' + 1) = a :: swap_remove t idx' := by
        rw [swap_remove, swap_remove, List.set_cons_succ]
        have hlast : (a :: t).getLast? = t.getLast? := by
          match t, ht with
          | b :: t', _ => exact List.getLast?_cons_cons
        rw [hlast, List.dropLast_cons_of_ne_nil]
        intro he
        apply ht
        have hlen := congrArg List.length he
        rw [List.length_set] at hlen
        exact List.length_eq_zero.mp hlen
      rw [hsw]
      exact ((List.Perm.swap a n _).trans (List.Perm.cons a (ih idx' n h)))

theorem mem_number_candidates_getElem {dumb : Bool} {stack numbers : List Nat}
    {c : Nat × Nat × List Nat} (h : c ∈ number_candidates dumb stack numbers) :
    numbers[c.1]? = some c.2.1 := by
  rw [number_candidates, List.mem_filterMap] at h
  obtain ⟨p, hp, hmap⟩ := h
  rw [Option.map_eq_some'] at hmap
  obtain ⟨sub, htry, heq⟩ := hmap
  obtain ⟨c1, c2, c3⟩ := c
  cases heq
  exact List.mem_enum_iff_getElem?.mp hp

theorem mem_calc_all_fuel_succ {fuel : Nat} {numbers : List Nat} {target : Nat} {dumb : Bool}
    {stack : List Nat} {history seq : PostfixSequence} :
    seq ∈ calc_all_fuel (fuel + 1) numbers target dumb stack history ↔
      (stack = [target] ∧ seq = history) ∨
      (∃ c ∈ number_candidates dumb stack numbers,
        seq ∈ calc_all_fuel fuel (swap_remove numbers c.1) target dumb c.2.2
          (history ++ [Token.Num c.2.1])) ∨
      (∃ c ∈ operation_candidates dumb stack,
        seq ∈ calc_all_fuel fuel numbers target dumb c.2 (history ++ [Token.Op c.1])) := by
  by_cases htgt : stack = [target] <;>
    simp [calc_all_fuel, htgt, List.mem_flatMap]

/-- Soundness invariant carried by every node of the find-all search: any
recorded sequence replays to exactly the target, and its `Num` tokens are,
as a multiset, contained in the tokens already played plus the numbers still
remaining. -/
theorem calc_all_fuel_sound : ∀ (fuel : Nat) (numbers : List Nat) (target : Nat) (dumb : Bool)
    (stack : List Nat) (history seq : PostfixSequence),
    runSeq dumb history = some stack →
    seq ∈ calc_all_fuel fuel numbers target dumb stack history →
    runSeq dumb seq = some [target] ∧
      (↑(num_tokens seq) : Multiset Nat) ≤ ↑(num_tokens history) + ↑numbers := by
  intro fuel
  induction fuel with
  | zero => intro numbers target dumb stack history seq _ hmem; simp [calc_all_fuel] at hmem
  | succ fuel ih =>
    intro numbers target dumb stack history seq hrun hmem
    rw [mem_calc_all_fuel_succ] at hmem
    rcases hmem with ⟨htgt, rfl⟩ | ⟨c, hc, hmem⟩ | ⟨c, hc, hmem⟩
    · subst htgt
      exact ⟨hrun, le_add_of_nonneg_right (Multiset.zero_le _)⟩
    · obtain ⟨hidx, htry⟩ := mem_number_candidates hc
      have hget := mem_number_candidates_getElem hc
      have hrun' : runSeq dumb (history ++ [Token.Num c.2.1]) = some c.2.2 := by
        rw [runSeq_append_single, hrun]
        exact htry
      obtain ⟨h1, h2⟩ := ih _ _ _ _ _ _ hrun' hmem
      refine ⟨h1, ?_⟩
      rw [num_tokens_append_num] at h2
      have hperm2 : ((num_tokens history ++ [c.2.1]) ++ swap_remove numbers c.1).Perm
          (num_tokens history ++ numbers) := by
        rw [List.append_assoc]
        exact List.Perm.append_left _ (swap_remove_perm _ _ _ hget)
      calc (↑(num_tokens seq) : Multiset Nat)
          ≤ ↑(num_tokens history ++ [c.2.1]) + ↑(swap_remove numbers c.1) := h2
        _ = ↑((num_tokens history ++ [c.2.1]) ++ swap_remove numbers c.1) :=
            Multiset.coe_add _ _
        _ = ↑(num_tokens history ++ numbers) := Multiset.coe_eq_coe.mpr hperm2
        _ = ↑(num_tokens history) + ↑numbers := (Multiset.coe_add _ _).symm
    · have htry := mem_operation_candidates hc
      have hrun' : runSeq dumb (history ++ [Token.Op c.1]) = some c.2 := by
        rw [runSeq_append_single, hrun]
        exact htry
      obtain ⟨h1, h2⟩ := ih _ _ _ _ _ _ hrun' hmem
      rw [num_tokens_append_op] at h2
      exact ⟨h1, h2⟩

/-- Any solution returned by the short-circuiting search is found by the
exhaustive search from the same node. -/
theorem calc_first_fuel_mem_all : ∀ (fuel : Nat) (numbers : List Nat) (target : Nat)
    (dumb : Bool) (stack : List Nat) (history seq : PostfixSequence),
    calc_first_fuel fuel numbers target dumb stack history = some seq →
    seq ∈ calc_all_fuel fuel numbers target dumb stack history := by
  intro fuel
  induction fuel with
  | zero => intro numbers target dumb stack history seq h; simp [calc_first_fuel] at h
  | succ fuel ih =>
    intro numbers target dumb stack history seq h
    simp only [calc_first_fuel] at h
    rw [mem_calc_all_fuel_succ]
    by_cases htgt : stack = [target]
    · rw [if_pos htgt] at h
      exact Or.inl ⟨htgt, ((Option.some.injEq _ _).mp h).symm⟩
    · rw [if_neg htgt] at h
      cases hfind : (number_candidates dumb stack numbers).findSome? (fun c =>
          calc_first_fuel fuel (swap_remove numbers c.1) target dumb c.2.2
            (history ++ [Token.Num c.2.1])) with
      | some s =>
        rw [hfind] at h
        simp only [] at h
        obtain ⟨c, hc, hfc⟩ := List.exists_of_findSome?_eq_some hfind
        cases h
        exact Or.inr (Or.inl ⟨c, hc, ih _ _ _ _ _ _ hfc⟩)
      | none =>
        rw [hfind] at h
        simp only [] at h
        obtain ⟨c, hc, hfc⟩ := List.exists_of_findSome?_eq_some h
        exact Or.inr (Or.inr ⟨c, hc, ih _ _ _ _ _ _ hfc⟩)

theorem calc_all_eq_fuel (numbers : List Nat) (target : Nat) (dumb : Bool) :
    calc_postfix_sequences_all numbers target dumb =
      calc_all_fuel (2 * numbers.length + 1) numbers target dumb [] [] := by
  rw [calc_postfix_sequences_all, calc_all_fuel_eq]
  simp

theorem calc_first_eq_fuel (numbers : List Nat) (target : Nat) (dumb : Bool) :
    calc_postfix_sequences_first numbers target dumb =
      calc_first_fuel (2 * numbers.length + 1) numbers target dumb [] [] := by
  rw [calc_postfix_sequences_first, calc_first_fuel_eq]
  simp

/-- Soundness of `calc_postfix_sequences_all` at the top level. -/
theorem calc_all_sound {numbers : List Nat} {target : Nat} {dumb : Bool}
    {seq : PostfixSequence} (h : seq ∈ calc_postfix_sequences_all numbers target dumb) :
    runSeq dumb seq = some [target] ∧
      (↑(num_tokens seq) : Multiset Nat) ≤ (↑numbers : Multiset Nat) := by
  rw [calc_all_eq_fuel] at h
  have h2 := calc_all_fuel_sound _ _ _ _ _ _ _
    (show runSeq dumb [] = some [] from rfl) h
  simpa [num_tokens] using h2

/-- Soundness of `calc_postfix_sequences_first` at the top level, via
membership in the exhaustive search. -/
theorem calc_first_mem_all {numbers : List Nat} {target : Nat} {dumb : Bool}
    {seq : PostfixSequence} (h : calc_postfix_sequences_first numbers target dumb = some seq) :
    seq ∈ calc_postfix_sequences_all numbers target dumb := by
  rw [calc_first_eq_fuel] at h
  rw [calc_all_eq_fuel]
  exact calc_first_fuel_mem_all _ _ _ _ _ _ _ h

/-- The display symbol of an operation (`impl fmt::Display for Op`). -/
def Op.symbol : Op → String
  | Op.Add => "+"
  | Op.Sub => "-"
  | Op.Mul => "*"
  | Op.Div => "/"

/-- Operational precedence rules: `impl Ord for Op` in `util.rs`.
`{Add, Sub}` are equal and lower, `{Mul, Div}` equal and higher. -/
def Op.cmp : Op → Op → Ordering
  | Op.Add, Op.Add | Op.Add, Op.Sub | Op.Sub, Op.Add | Op.Sub, Op.Sub => Ordering.eq
  | Op.Mul, Op.Mul | Op.Mul, Op.Div | Op.Div, Op.Mul | Op.Div, Op.Div => Ordering.eq
  | Op.Add, Op.Mul | Op.Add, Op.Div | Op.Sub, Op.Mul | Op.Sub, Op.Div => Ordering.lt
  | Op.Mul, Op.Add | Op.Mul, Op.Sub | Op.Div, Op.Add | Op.Div, Op.Sub => Ordering.gt

/-- A binary expression tree (`util.rs`, enum `ExpBTree`): a `Num` leaf or an
internal node with two child trees and an operation. -/
inductive ExpBTree : Type
  | Num (n : Nat)
  | Exp (lhs rhs : ExpBTree) (op : Op)
deriving DecidableEq, Repr

/-- One step of `TryFrom<PostfixSequence> for ExpBTree`: a number pushes a
leaf; an operation pops `rhs` then `lhs` (failing on underflow) and pushes an
internal node. -/
def ExpBTree.try_from_step (stack : List ExpBTree) (t : Token) : Option (List ExpBTree) :=
  match t with
  | Token.Num n => some (ExpBTree.Num n :: stack)
  | Token.Op op =>
    match stack with
    | rhs :: lhs :: rest => some (ExpBTree.Exp lhs rhs op :: rest)
    | _ => none

/-- `TryFrom<PostfixSequence> for ExpBTree` (`util.rs`): replay the sequence
over a stack of trees; the sequence is valid only when exactly one tree
remains.  The Rust error value carries only a rendering of the offending
sequence, so the failure is modelled by `none`. -/
def ExpBTree.try_from (seq : PostfixSequence) : Option ExpBTree :=
  match seq.foldlM ExpBTree.try_from_step [] with
  | some [t] => some t
  | _ => none

/-- `ExpBTree::commutative_eq` (`util.rs`): structural equality treating `Add`
and `Mul` nodes as equal under a left/right swap, recursively. -/
def ExpBTree.commutative_eq : ExpBTree → ExpBTree → Bool
  | ExpBTree.Num s, ExpBTree.Num o => s == o
  | ExpBTree.Exp s_lhs s_rhs s_op, ExpBTree.Exp o_lhs o_rhs o_op =>
    if s_op ≠ o_op then false
    else
      match s_op with
      | Op.Add | Op.Mul =>
        (s_lhs.commutative_eq o_lhs && s_rhs.commutative_eq o_rhs) ||
        (s_lhs.commutative_eq o_rhs && s_rhs.commutative_eq o_lhs)
      | Op.Sub | Op.Div =>
        s_lhs.commutative_eq o_lhs && s_rhs.commutative_eq o_rhs
  | _, _ => false

/-- `ExpBTree::to_postfix_string` (`util.rs`). -/
def ExpBTree.to_postfix_string : ExpBTree → String
  | ExpBTree.Num n => toString n
  | ExpBTree.Exp lhs rhs op =>
    lhs.to_postfix_string ++ "," ++ rhs.to_postfix_string ++ "," ++ op.symbol

/-- `ExpBTree::to_infix_string_impl` (`util.rs`): renders a subtree and
reports its root operation; the caller parenthesises a left child whose
operation compares `Less` than the current one, and a right child whose
operation compares `Less` or `Equal`. -/
def ExpBTree.to_infix_string_impl : ExpBTree → String × Option Op
  | ExpBTree.Num n => (toString n, none)
  | ExpBTree.Exp lhs rhs op =>
    let l := lhs.to_infix_string_impl
    let lhs_repr :=
      match l.2 with
      | none => l.1
      | some lhs_op =>
        match lhs_op.cmp op with
        | Ordering.lt => "(" ++ l.1 ++ ")"
        | Ordering.eq => l.1
        | Ordering.gt => l.1
    let r := rhs.to_infix_string_impl
    let rhs_repr :=
      match r.2 with
      | none => r.1
      | some rhs_op =>
        match rhs_op.cmp op with
        | Ordering.lt => "(" ++ r.1 ++ ")"
        | Ordering.eq => "(" ++ r.1 ++ ")"
        | Ordering.gt => r.1
    (lhs_repr ++ op.symbol ++ rhs_repr, some op)

/-- `ExpBTree::to_infix_string` (`util.rs`). -/
def ExpBTree.to_infix_string (t : ExpBTree) : String :=
  t.to_infix_string_impl.1

/-- Helper for `dedup_by`: compare each element against the currently
retained one, dropping it when the comparison holds. -/
def dedup_by_go {α : Type} (cmp : α → α → Bool) : α → List α → List α
  | x, [] => [x]
  | x, y :: ys => if cmp x y then dedup_by_go cmp x ys else x :: dedup_by_go cmp y ys

/-- itertools `dedup_by` as used in `main.rs`: remove duplicates from runs of
consecutive elements equal under `cmp`, keeping the first of each run. -/
def dedup_by {α : Type} (cmp : α → α → Bool) : List α → List α
  | [] => []
  | x :: xs => dedup_by_go cmp x xs

/-- The find-all output pipeline of `main.rs`, applied to the solution set in
whatever iteration order the `HashSet` yields: convert each sequence to a
tree, `dedup_by` commutative equality, render (postfix or infix), and sort
the rendered strings. -/
def render_all_output (pf_mode : Bool) (solutions : List PostfixSequence) : List String :=
  ((dedup_by ExpBTree.commutative_eq (solutions.filterMap ExpBTree.try_from)).map
    fun tree => if pf_mode then tree.to_postfix_string else tree.to_infix_string).mergeSort
    fun a b => decide (a ≤ b)

/-- Modelled from the spec (section 8, C2): one step of "ordinary
(unconstrained) integer arithmetic" postfix evaluation — push a number, or
pop two operands and push the exact integer result, with no legality checks
(division by zero, absent from any engine-produced sequence, yields a
failure). -/
def eval_step_exact : List Int → Token → Option (List Int)
  | s, Token.Num n => some ((n : Int) :: s)
  | b :: a :: rest, Token.Op op =>
    match op with
    | Op.Add => some ((a + b) :: rest)
    | Op.Sub => some ((a - b) :: rest)
    | Op.Mul => some ((a * b) :: rest)
    | Op.Div => if b = 0 then none else some ((a / b) :: rest)
  | _, Token.Op _ => none

/-- Unconstrained postfix evaluation of a whole sequence from the empty
stack, with exact integer arithmetic. -/
def eval_seq_exact (seq : PostfixSequence) : Option (List Int) :=
  seq.foldlM eval_step_exact []

/-- Unconstrained postfix evaluation, except that addition and
multiplication wrap modulo `2 ^ 32` exactly as the `u32` arithmetic inside
the search does. -/
def eval_step_u32 : List Int → Token → Option (List Int)
  | s, Token.Num n => some ((n : Int) :: s)
  | b :: a :: rest, Token.Op op =>
    match op with
    | Op.Add => some ((a + b) % (u32Mod : Int) :: rest)
    | Op.Sub => some ((a - b) :: rest)
    | Op.Mul => some ((a * b) % (u32Mod : Int) :: rest)
    | Op.Div => if b = 0 then none else some ((a / b) :: rest)
  | _, Token.Op _ => none

/-- Wrapping postfix evaluation of a whole sequence from the empty stack. -/
def eval_seq_u32 (seq : PostfixSequence) : Option (List Int) :=
  seq.foldlM eval_step_u32 []

theorem try_apply_eval_u32 {dumb : Bool} {stack s' : List Nat} {t : Token}
    (h : try_apply dumb stack t = some s') :
    eval_step_u32 (stack.map Int.ofNat) t = some (s'.map Int.ofNat) := by
  cases t with
  | Num n =>
    rw [try_apply_num_eq h]
    simp [eval_step_u32]
  | Op o =>
    obtain ⟨a, b, rest, hstack, hres⟩ := try_apply_op_eq h
    subst hstack
    cases o <;> simp only [] at hres
    · rw [hres]
      show some (((a : Int) + b) % (u32Mod : Int) :: rest.map Int.ofNat) = _
      rw [show ((a : Int) + b) % (u32Mod : Int) = ((a + b) % u32Mod : Nat) by push_cast; ring_nf]
      rfl
    · rw [hres.2]
      show some (((a : Int) - b) :: rest.map Int.ofNat) = _
      rw [show ((a : Int) - b) = ((a - b : Nat) : Int) by rw [Int.ofNat_sub hres.1]]
      rfl
    · rw [hres]
      show some (((a : Int) * b) % (u32Mod : Int) :: rest.map Int.ofNat) = _
      rw [show ((a : Int) * b) % (u32Mod : Int) = ((a * b) % u32Mod : Nat) by push_cast; ring_nf]
      rfl
    · rw [hres.2.2]
      show (if (b : Int) = 0 then none else some (((a : Int) / b) :: rest.map Int.ofNat)) = _
      rw [if_neg (by exact_mod_cast hres.1)]
      rw [show ((a : Int) / b) = ((a / b : Nat) : Int) from (Int.ofNat_div a b).symm]
      rfl

theorem foldlM_eval_u32 {dumb : Bool} : ∀ (seq : PostfixSequence) (stack res : List Nat),
    List.foldlM (try_apply dumb) stack seq = some res →
    List.foldlM eval_step_u32 (stack.map Int.ofNat) seq = some (res.map Int.ofNat) := by
  intro seq
  induction seq with
  | nil =>
    intro stack res h
    cases h
    rfl
  | cons t ts ih =>
    intro stack res h
    rw [List.foldlM_cons] at h ⊢
    cases htry : try_apply dumb stack t with
    | none => rw [htry] at h; exact absurd h (by simp)
    | some s1 =>
      rw [htry] at h
      rw [try_apply_eval_u32 htry]
      exact ih s1 res h

/-- Any sequence whose constrained replay reaches exactly the target also
evaluates, under unconstrained wrapping arithmetic, to exactly the target. -/
theorem runSeq_eval_u32 {dumb : Bool} {seq : PostfixSequence} {target : Nat}
    (h : runSeq dumb seq = some [target]) :
    eval_seq_u32 seq = some [(target : Int)] :=
  foldlM_eval_u32 seq [] [target] h

/-- The operation at the root of a tree, `none` for a leaf (this is the
`Option<Op>` component returned by `to_infix_string_impl`). -/
def root_op : ExpBTree → Option Op
  | ExpBTree.Num _ => none
  | ExpBTree.Exp _ _ o => some o

/-- Numeric precedence class: `{Add, Sub}` low, `{Mul, Div}` high. -/
def Op.prec : Op → Nat
  | Op.Add | Op.Sub => 0
  | Op.Mul | Op.Div => 1

/-- Modelled from the spec (section 4.3, claim C7): parentheses are placed
around a child exactly when the child's operator precedence is lower than the
parent's, and additionally around the right child when the parent operator is
non-commutative (Sub or Div) and the child's precedence equals the
parent's; a Number leaf is never parenthesised. -/
def to_infix_string_claimed : ExpBTree → String
  | ExpBTree.Num n => toString n
  | ExpBTree.Exp lhs rhs op =>
    let ls := to_infix_string_claimed lhs
    let lhs_repr :=
      match root_op lhs with
      | none => ls
      | some lhs_op => if lhs_op.prec < op.prec then "(" ++ ls ++ ")" else ls
    let rs := to_infix_string_claimed rhs
    let rhs_repr :=
      match root_op rhs with
      | none => rs
      | some rhs_op =>
        if rhs_op.prec < op.prec ∨ (rhs_op.prec = op.prec ∧ (op = Op.Sub ∨ op = Op.Div))
        then "(" ++ rs ++ ")"
        else rs
    lhs_repr ++ op.symbol ++ rhs_repr

/-- The amended rendering rule actually implemented by `to_infix_string`:
the left child is parenthesised exactly when its precedence is lower than the
parent's, and the right child exactly when its precedence is lower than or
equal to the parent's, regardless of which operator the parent is; a Number
leaf is never parenthesised. -/
def to_infix_string_amended : ExpBTree → String
  | ExpBTree.Num n => toString n
  | ExpBTree.Exp lhs rhs op =>
    let ls := to_infix_string_amended lhs
    let lhs_repr :=
      match root_op lhs with
      | none => ls
      | some lhs_op => if lhs_op.prec < op.prec then "(" ++ ls ++ ")" else ls
    let rs := to_infix_string_amended rhs
    let rhs_repr :=
      match root_op rhs with
      | none => rs
      | some rhs_op => if rhs_op.prec ≤ op.prec then "(" ++ rs ++ ")" else rs
    lhs_repr ++ op.symbol ++ rhs_repr

theorem op_cmp_lt_iff (a b : Op) : a.cmp b = Ordering.lt ↔ a.prec < b.prec := by
  cases a <;> cases b <;> simp [Op.cmp, Op.prec]

theorem op_cmp_le_iff (a b : Op) :
    (a.cmp b = Ordering.lt ∨ a.cmp b = Ordering.eq) ↔ a.prec ≤ b.prec := by
  cases a <;> cases b <;> simp [Op.cmp, Op.prec]

theorem to_infix_impl_eq_amended : ∀ t : ExpBTree,
    t.to_infix_string_impl = (to_infix_string_amended t, root_op t) := by
  intro t
  induction t with
  | Num n => rfl
  | Exp lhs rhs op ihl ihr =>
    simp only [ExpBTree.to_infix_string_impl, to_infix_string_amended]
    rw [ihl, ihr]
    cases hl : root_op lhs with
    | none =>
      cases hr : root_op rhs with
      | none => rfl
      | some rop => cases rop <;> cases op <;> rfl
    | some lop =>
      cases hr : root_op rhs with
      | none => cases lop <;> cases op <;> rfl
      | some rop => cases lop <;> cases rop <;> cases op <;> rfl

theorem commutative_eq_refl : ∀ t : ExpBTree, t.commutative_eq t = true := by
  intro t
  induction t with
  | Num n => simp [ExpBTree.commutative_eq]
  | Exp lhs rhs op ihl ihr => cases op <;> simp [ExpBTree.commutative_eq, ihl, ihr]

theorem commutative_eq_symm : ∀ a b : ExpBTree, a.commutative_eq b = b.commutative_eq a := by
  intro a
  induction a with
  | Num n =>
    intro b
    cases b with
    | Num m =>
      show (n == m) = (m == n)
      by_cases h : n = m <;> simp [h]
      exact fun hc => h hc.symm
    | Exp l r o => rfl
  | Exp lhs rhs op ihl ihr =>
    intro b
    cases b with
    | Num m => rfl
    | Exp l2 r2 o2 =>
      by_cases hop : op = o2
      · subst hop
        cases op <;>
          simp [ExpBTree.commutative_eq, ihl, ihr, Bool.and_comm, Bool.or_comm]
      · simp [ExpBTree.commutative_eq, hop, Ne.symm hop]

theorem commutative_eq_trans : ∀ b a c : ExpBTree,
    a.commutative_eq b = true → b.commutative_eq c = true → a.commutative_eq c = true := by
  intro b
  induction b with
  | Num n =>
    intro a c hab hbc
    cases a <;> cases c <;> simp_all [ExpBTree.commutative_eq]
  | Exp bl br bop ihl ihr =>
    intro a c hab hbc
    cases a with
    | Num m => simp [ExpBTree.commutative_eq] at hab
    | Exp al ar aop =>
      cases c with
      | Num m => simp [ExpBTree.commutative_eq] at hbc
      | Exp cl cr cop =>
        have hop1 : aop = bop := by
          by_contra hne
          simp [ExpBTree.commutative_eq, hne] at hab
        have hop2 : bop = cop := by
          by_contra hne
          simp [ExpBTree.commutative_eq, hne] at hbc
        subst hop1
        subst hop2
        cases aop
        case Add =>
          simp only [ExpBTree.commutative_eq, ne_eq, not_true_eq_false, reduceIte,
            Bool.or_eq_true, Bool.and_eq_true] at hab hbc ⊢
          rcases hab with ⟨h1, h2⟩ | ⟨h1, h2⟩ <;> rcases hbc with ⟨h3, h4⟩ | ⟨h3, h4⟩
          · exact Or.inl ⟨ihl _ _ h1 h3, ihr _ _ h2 h4⟩
          · exact Or.inr ⟨ihl _ _ h1 h3, ihr _ _ h2 h4⟩
          · exact Or.inr ⟨ihr _ _ h1 h4, ihl _ _ h2 h3⟩
          · exact Or.inl ⟨ihr _ _ h1 h4, ihl _ _ h2 h3⟩
        case Mul =>
          simp only [ExpBTree.commutative_eq, ne_eq, not_true_eq_false, reduceIte,
            Bool.or_eq_true, Bool.and_eq_true] at hab hbc ⊢
          rcases hab with ⟨h1, h2⟩ | ⟨h1, h2⟩ <;> rcases hbc with ⟨h3, h4⟩ | ⟨h3, h4⟩
          · exact Or.inl ⟨ihl _ _ h1 h3, ihr _ _ h2 h4⟩
          · exact Or.inr ⟨ihl _ _ h1 h3, ihr _ _ h2 h4⟩
          · exact Or.inr ⟨ihr _ _ h1 h4, ihl _ _ h2 h3⟩
          · exact Or.inl ⟨ihr _ _ h1 h4, ihl _ _ h2 h3⟩
        case Sub =>
          simp only [ExpBTree.commutative_eq, ne_eq, not_true_eq_false, reduceIte,
            Bool.and_eq_true] at hab hbc ⊢
          exact ⟨ihl _ _ hab.1 hbc.1, ihr _ _ hab.2 hbc.2⟩
        case Div =>
          simp only [ExpBTree.commutative_eq, ne_eq, not_true_eq_false, reduceIte,
            Bool.and_eq_true] at hab hbc ⊢
          exact ⟨ihl _ _ hab.1 hbc.1, ihr _ _ hab.2 hbc.2⟩

theorem dedup_by_go_head {α : Type} (cmp : α → α → Bool) :
    ∀ (xs : List α) (x : α), ∃ t, dedup_by_go cmp x xs = x :: t := by
  intro xs
  induction xs with
  | nil => intro x; exact ⟨[], rfl⟩
  | cons y ys ih =>
    intro x
    rw [dedup_by_go]
    by_cases h : cmp x y = true
    · rw [if_pos h]
      exact ih x
    · rw [if_neg h]
      exact ⟨dedup_by_go cmp y ys, rfl⟩

/-- `dedup_by` guarantees only that no two CONSECUTIVE retained elements are
related; elements of the same class separated by an unrelated element both
survive. -/
theorem dedup_by_go_chain {α : Type} (cmp : α → α → Bool) :
    ∀ (xs : List α) (x : α),
      List.Chain' (fun a b => cmp a b = false) (dedup_by_go cmp x xs) := by
  intro xs
  induction xs with
  | nil => intro x; simp [dedup_by_go]
  | cons y ys ih =>
    intro x
    rw [dedup_by_go]
    by_cases h : cmp x y = true
    · rw [if_pos h]
      exact ih x
    · rw [if_neg h]
      obtain ⟨t, ht⟩ := dedup_by_go_head cmp ys y
      rw [ht]
      rw [List.chain'_cons]
      constructor
      · exact Bool.not_eq_true _ ▸ Bool.of_not_eq_true h
      · rw [← ht]
        exact ih y

theorem dedup_by_chain {α : Type} (cmp : α → α → Bool) (l : List α) :
    List.Chain' (fun a b => cmp a b = false) (dedup_by cmp l) := by
  cases l with
  | nil => simp [dedup_by]
  | cons x xs => exact dedup_by_go_chain cmp xs x

theorem render_all_output_sorted (pf_mode : Bool) (solutions : List PostfixSequence) :
    (render_all_output pf_mode solutions).Pairwise (fun a b => a ≤ b) := by
  rw [render_all_output]
  have hp := @List.sorted_mergeSort String (fun a b : String => decide (a ≤ b))
    (fun a b c hab hbc => by
      simp only [decide_eq_true_eq] at hab hbc ⊢
      exact le_trans hab hbc)
    (fun a b => by
      simp only [Bool.or_eq_true, decide_eq_true_eq]
      exact le_total a b)
    ((dedup_by ExpBTree.commutative_eq (solutions.filterMap ExpBTree.try_from)).map
      fun tree => if pf_mode then tree.to_postfix_string else tree.to_infix_string)
  exact hp.imp fun h => by simpa using h

theorem first_2_3_5_sensible :
    calc_postfix_sequences_first [2, 3] 5 false =
      some [Token.Num 3, Token.Num 2, Token.Op Op.Add] := by
  rw [calc_first_eq_fuel]
  rfl

theorem all_2_3_5_sensible :
    calc_postfix_sequences_all [2, 3] 5 false =
      [[Token.Num 3, Token.Num 2, Token.Op Op.Add]] := by
  rw [calc_all_eq_fuel]
  rfl

theorem first_5_7_5_sensible :
    calc_postfix_sequences_first [5, 7] 5 false = some [Token.Num 5] := by
  rw [calc_first_eq_fuel]
  rfl

theorem first_wrap_sensible :
    calc_postfix_sequences_first [4294967295, 1] 0 false =
      some [Token.Num 4294967295, Token.Num 1, Token.Op Op.Add] := by
  rw [calc_first_eq_fuel]
  rfl

theorem first_wrap_dumb :
    calc_postfix_sequences_first [4294967295, 4294967295] 4294967294 true =
      some [Token.Num 4294967295, Token.Num 4294967295, Token.Op Op.Add] := by
  rw [calc_first_eq_fuel]
  rfl

theorem all_1_4_4_dumb :
    calc_postfix_sequences_all [1, 4] 4 true =
      [[Token.Num 1, Token.Num 4, Token.Op Op.Mul], [Token.Num 4],
       [Token.Num 4, Token.Num 1, Token.Op Op.Mul],
       [Token.Num 4, Token.Num 1, Token.Op Op.Div]] := by
  rw [calc_all_eq_fuel]
  rfl

/-- C1 (counterexample): on numbers `[5, 7]` with target `5` and the sensible
policy, find-first returns the single-token sequence `5` (which find-all also
contains), whose `Num`-token multiset `{5}` is NOT equal to the input
multiset `{5, 7}` — the number `7` is omitted, contradicting the claim that
every input number is used exactly once with no omissions. -/
theorem C1_counterexample :
    calc_postfix_sequences_first [5, 7] 5 false = some [Token.Num 5] ∧
    [Token.Num 5] ∈ calc_postfix_sequences_all [5, 7] 5 false ∧
    (↑(num_tokens [Token.Num 5]) : Multiset Nat) ≠ (↑([5, 7] : List Nat) : Multiset Nat) := by
  refine ⟨first_5_7_5_sensible, ?_, ?_⟩
  · exact calc_first_mem_all first_5_7_5_sensible
  · intro h
    have := congrArg Multiset.card h
    simp [num_tokens] at this

/-- C1 (amended): for every input, target and policy, every sequence returned
by find-all or find-first has a `Num`-token multiset that is a sub-multiset of
the input numbers multiset: each input number is used at most once (no number
is used twice and none is invented), but numbers may be left unused because a
solution is recorded whenever the running stack hits the target, even with
numbers remaining. -/
theorem C1_theorem :
    (∀ (numbers : List Nat) (target : Nat) (dumb : Bool) (seq : PostfixSequence),
      seq ∈ calc_postfix_sequences_all numbers target dumb →
      (↑(num_tokens seq) : Multiset Nat) ≤ (↑numbers : Multiset Nat)) ∧
    (∀ (numbers : List Nat) (target : Nat) (dumb : Bool) (seq : PostfixSequence),
      calc_postfix_sequences_first numbers target dumb = some seq →
      (↑(num_tokens seq) : Multiset Nat) ≤ (↑numbers : Multiset Nat)) :=
  ⟨fun _ _ _ _ h => (calc_all_sound h).2,
   fun _ _ _ _ h => (calc_all_sound (calc_first_mem_all h)).2⟩

/-- C1 (witness): the sequence `3,2,+` returned for numbers `[2, 3]`,
target `5`, sensible policy has `Num` tokens `{3, 2} ≤ {2, 3}`. -/
theorem C1_witness :
    [Token.Num 3, Token.Num 2, Token.Op Op.Add] ∈ calc_postfix_sequences_all [2, 3] 5 false ∧
    (↑(num_tokens [Token.Num 3, Token.Num 2, Token.Op Op.Add]) : Multiset Nat) ≤
      (↑([2, 3] : List Nat) : Multiset Nat) :=
  ⟨by rw [all_2_3_5_sensible]; exact List.mem_singleton.mpr rfl,
   C1_theorem.1 [2, 3] 5 false _ (by rw [all_2_3_5_sensible]; exact List.mem_singleton.mpr rfl)⟩

/-- C2 (counterexample): on numbers `[4294967295, 1]` with target `0` and the
sensible policy, find-first returns `4294967295,1,+`, accepted because the
`u32` addition wraps to `0`; evaluated with ordinary unconstrained integer
arithmetic the sequence yields `4294967296`, not the target `0`. -/
theorem C2_counterexample :
    calc_postfix_sequences_first [4294967295, 1] 0 false =
      some [Token.Num 4294967295, Token.Num 1, Token.Op Op.Add] ∧
    eval_seq_exact [Token.Num 4294967295, Token.Num 1, Token.Op Op.Add] =
      some [(4294967296 : Int)] ∧
    ((4294967296 : Int) ≠ (0 : Int)) :=
  ⟨first_wrap_sensible, rfl, by decide⟩

/-- C2 (amended): every sequence returned by find-all or find-first, postfix
evaluated with unconstrained integer arithmetic in which addition and
multiplication wrap modulo `2 ^ 32` (exactly the `u32` arithmetic the search
performs), leaves exactly one value on the stack, equal to the target.  With
fully exact integer arithmetic this can fail only when an intermediate `u32`
addition or multiplication overflows. -/
theorem C2_theorem :
    (∀ (numbers : List Nat) (target : Nat) (dumb : Bool) (seq : PostfixSequence),
      seq ∈ calc_postfix_sequences_all numbers target dumb →
      eval_seq_u32 seq = some [(target : Int)]) ∧
    (∀ (numbers : List Nat) (target : Nat) (dumb : Bool) (seq : PostfixSequence),
      calc_postfix_sequences_first numbers target dumb = some seq →
      eval_seq_u32 seq = some [(target : Int)]) :=
  ⟨fun _ _ _ _ h => runSeq_eval_u32 (calc_all_sound h).1,
   fun _ _ _ _ h => runSeq_eval_u32 (calc_all_sound (calc_first_mem_all h)).1⟩

/-- C2 (witness): the sequence `3,2,+` returned for numbers `[2, 3]`,
target `5`, sensible policy evaluates to exactly `[5]`. -/
theorem C2_witness :
    [Token.Num 3, Token.Num 2, Token.Op Op.Add] ∈ calc_postfix_sequences_all [2, 3] 5 false ∧
    eval_seq_u32 [Token.Num 3, Token.Num 2, Token.Op Op.Add] = some [(5 : Int)] :=
  ⟨by rw [all_2_3_5_sensible]; exact List.mem_singleton.mpr rfl,
   C2_theorem.1 [2, 3] 5 false _ (by rw [all_2_3_5_sensible]; exact List.mem_singleton.mpr rfl)⟩

/-- C3 (failing input): on the stack `[2, 2]` (operand0 = 2, operand1 = 2)
with a Sub token, `try_apply_legal` rejects (it requires `operand0 >
operand1`) but `try_apply_sensible` accepts and pushes `0` (its guard is the
strict `operand0 < operand1`, so equality slips through), contradicting the
claim that the sensible policy rejects everything the legal policy rejects
and that Sub requires `a > b` under both policies. -/
theorem C3_failing_input :
    try_apply_legal [2, 2] (Token.Op Op.Sub) = none ∧
    try_apply_sensible [2, 2] (Token.Op Op.Sub) = some [0] :=
  ⟨rfl, rfl⟩

/-- C4: every sequence returned by find-first is a member of the find-all
result set for the same numbers, target and policy. -/
theorem C4_theorem :
    ∀ (numbers : List Nat) (target : Nat) (dumb : Bool) (seq : PostfixSequence),
      calc_postfix_sequences_first numbers target dumb = some seq →
      seq ∈ calc_postfix_sequences_all numbers target dumb :=
  fun _ _ _ _ h => calc_first_mem_all h

/-- C4 (witness): for numbers `[2, 3]`, target `5`, sensible policy,
find-first returns `3,2,+`, which is in the find-all result. -/
theorem C4_witness :
    calc_postfix_sequences_first [2, 3] 5 false =
      some [Token.Num 3, Token.Num 2, Token.Op Op.Add] ∧
    [Token.Num 3, Token.Num 2, Token.Op Op.Add] ∈ calc_postfix_sequences_all [2, 3] 5 false :=
  ⟨first_2_3_5_sensible, C4_theorem [2, 3] 5 false _ first_2_3_5_sensible⟩

/-- C5 (counterexample): with numbers `[2, 3]`, target `5`, sensible policy,
find-first returns the postfix sequence `3,2,+`, not `2,3,+` as claimed: the
sensible Add guard rejects `2+3` (operand0 = 2 < operand1 = 3), so the branch
pushing `3` first wins. -/
theorem C5_counterexample :
    calc_postfix_sequences_first [2, 3] 5 false =
      some [Token.Num 3, Token.Num 2, Token.Op Op.Add] ∧
    some [Token.Num 3, Token.Num 2, Token.Op Op.Add] ≠
      some [Token.Num 2, Token.Num 3, Token.Op Op.Add] :=
  ⟨first_2_3_5_sensible, by decide⟩

/-- C5 (amended): with input numbers `[2, 3]`, target `5`, the sensible
policy and find-first, the returned sequence is the postfix sequence `3,2,+`
(rendered infix as `3+2`). -/
theorem C5_theorem :
    calc_postfix_sequences_first [2, 3] 5 false =
      some [Token.Num 3, Token.Num 2, Token.Op Op.Add] ∧
    ExpBTree.try_from [Token.Num 3, Token.Num 2, Token.Op Op.Add] =
      some (ExpBTree.Exp (ExpBTree.Num 3) (ExpBTree.Num 2) Op.Add) ∧
    ExpBTree.to_infix_string (ExpBTree.Exp (ExpBTree.Num 3) (ExpBTree.Num 2) Op.Add) = "3+2" :=
  ⟨first_2_3_5_sensible, rfl, rfl⟩

/-- One possible iteration order of the find-all solution set for numbers
`[1, 4]`, target `4`, dumb policy, in which the two commutative-equal
solutions `1,4,*` and `4,1,*` are separated by the unrelated solution `4`. -/
def separated_order : List PostfixSequence :=
  [[Token.Num 1, Token.Num 4, Token.Op Op.Mul], [Token.Num 4],
   [Token.Num 4, Token.Num 1, Token.Op Op.Mul], [Token.Num 4, Token.Num 1, Token.Op Op.Div]]

/-- C6 (counterexample): for numbers `[1, 4]`, target `4`, dumb policy... the
find-all solution set has the four distinct elements of `separated_order`;
iterating the set in that order, itertools `dedup_by` (which only merges
consecutive elements) retains both `1*4` and `4*1`, whose trees are
commutative-equal, so the rendered output contains two commutative-equal
expressions, contradicting the claimed order-independence of the
dedup-then-render-then-sort pipeline. -/
theorem C6_counterexample :
    (calc_postfix_sequences_all [1, 4] 4 true).Nodup ∧
    separated_order.Perm (calc_postfix_sequences_all [1, 4] 4 true) ∧
    dedup_by ExpBTree.commutative_eq (separated_order.filterMap ExpBTree.try_from) =
      [ExpBTree.Exp (ExpBTree.Num 1) (ExpBTree.Num 4) Op.Mul, ExpBTree.Num 4,
       ExpBTree.Exp (ExpBTree.Num 4) (ExpBTree.Num 1) Op.Mul,
       ExpBTree.Exp (ExpBTree.Num 4) (ExpBTree.Num 1) Op.Div] ∧
    (ExpBTree.Exp (ExpBTree.Num 1) (ExpBTree.Num 4) Op.Mul).commutative_eq
      (ExpBTree.Exp (ExpBTree.Num 4) (ExpBTree.Num 1) Op.Mul) = true ∧
    ExpBTree.Exp (ExpBTree.Num 1) (ExpBTree.Num 4) Op.Mul ≠
      ExpBTree.Exp (ExpBTree.Num 4) (ExpBTree.Num 1) Op.Mul ∧
    "1*4" ∈ render_all_output false separated_order ∧
    "4*1" ∈ render_all_output false separated_order := by
  refine ⟨?_, ?_, by decide, by decide, by decide, ?_, ?_⟩
  · rw [all_1_4_4_dumb]
    decide
  · rw [all_1_4_4_dumb]
    exact List.isPerm_iff.mp (by decide)
  · rw [render_all_output]
    exact List.mem_mergeSort.mpr (by decide)
  · rw [render_all_output]
    exact List.mem_mergeSort.mpr (by decide)

/-- C6 (amended): for every iteration order of the find-all result and either
rendering mode, the output pipeline of `main.rs` produces a list in sorted
(string) order, and the `dedup_by` pass guarantees only that no two
CONSECUTIVE trees of the deduplicated list are commutative-equal; duplicates
separated by an unrelated element in the set's arbitrary iteration order can
both survive. -/
theorem C6_theorem :
    ∀ (pf_mode : Bool) (solutions : List PostfixSequence),
      (render_all_output pf_mode solutions).Pairwise (fun a b => a ≤ b) ∧
      List.Chain' (fun a b => ExpBTree.commutative_eq a b = false)
        (dedup_by ExpBTree.commutative_eq (solutions.filterMap ExpBTree.try_from)) :=
  fun pf_mode solutions =>
    ⟨render_all_output_sorted pf_mode solutions, dedup_by_chain _ _⟩

/-- C7 (counterexample): on the tree `1+(2+3)` (right child `2+3` under a
commutative Add parent of equal precedence) the implemented rendering
parenthesises the right child, `"1+(2+3)"`, while the claimed rule (right
child parenthesised at equal precedence only under Sub or Div) renders
`"1+2+3"`. -/
theorem C7_counterexample :
    ExpBTree.to_infix_string
      (ExpBTree.Exp (ExpBTree.Num 1)
        (ExpBTree.Exp (ExpBTree.Num 2) (ExpBTree.Num 3) Op.Add) Op.Add) = "1+(2+3)" ∧
    to_infix_string_claimed
      (ExpBTree.Exp (ExpBTree.Num 1)
        (ExpBTree.Exp (ExpBTree.Num 2) (ExpBTree.Num 3) Op.Add) Op.Add) = "1+2+3" ∧
    ("1+(2+3)" : String) ≠ "1+2+3" :=
  ⟨rfl, rfl, by decide⟩

/-- C7 (amended): `to_infix_string` parenthesises the left child exactly when
its operator precedence is lower than the parent's, and the right child
exactly when its operator precedence is lower than OR EQUAL TO the parent's
(regardless of which operator the parent is); a Number leaf is never
parenthesised. -/
theorem C7_theorem : ∀ t : ExpBTree, ExpBTree.to_infix_string t = to_infix_string_amended t :=
  fun t => by rw [ExpBTree.to_infix_string, to_infix_impl_eq_amended]

/-- C8: `commutative_eq` is an equivalence relation on expression trees:
reflexive, symmetric and transitive. -/
theorem C8_theorem :
    (∀ t : ExpBTree, t.commutative_eq t = true) ∧
    (∀ a b : ExpBTree, a.commutative_eq b = b.commutative_eq a) ∧
    (∀ a b c : ExpBTree, a.commutative_eq b = true → b.commutative_eq c = true →
      a.commutative_eq c = true) :=
  ⟨commutative_eq_refl, commutative_eq_symm,
   fun a b c hab hbc => commutative_eq_trans b a c hab hbc⟩

/-- C8 (witness): transitivity applied at `1+2 ~ 2+1 ~ 1+2`. -/
theorem C8_witness :
    (ExpBTree.Exp (ExpBTree.Num 1) (ExpBTree.Num 2) Op.Add).commutative_eq
      (ExpBTree.Exp (ExpBTree.Num 1) (ExpBTree.Num 2) Op.Add) = true :=
  C8_theorem.2.2 (ExpBTree.Exp (ExpBTree.Num 1) (ExpBTree.Num 2) Op.Add)
    (ExpBTree.Exp (ExpBTree.Num 2) (ExpBTree.Num 1) Op.Add)
    (ExpBTree.Exp (ExpBTree.Num 1) (ExpBTree.Num 2) Op.Add)
    (by decide) (by decide)

/-- C9: the search recursion terminates on every input: a number step removes
one number from the remaining list while pushing one stack value, and an
operator step shrinks the stack by one net element, so the measure
`2·|numbers| + |stack|` strictly decreases at every recursive call of
`calc_postfix_sequences_all_recurse` and `calc_postfix_sequences_first_recurse`
(this is the well-founded measure the definitions recurse on). -/
theorem C9_theorem :
    (∀ (dumb : Bool) (stack : List Nat) (n : Nat) (s' : List Nat)
      (numbers : List Nat) (idx : Nat),
      idx < numbers.length → try_apply dumb stack (Token.Num n) = some s' →
      2 * (swap_remove numbers idx).length + s'.length <
        2 * numbers.length + stack.length) ∧
    (∀ (dumb : Bool) (stack : List Nat) (o : Op) (s' : List Nat) (numbers : List Nat),
      try_apply dumb stack (Token.Op o) = some s' →
      2 * numbers.length + s'.length < 2 * numbers.length + stack.length) := by
  constructor
  · intro dumb stack n s' numbers idx hidx htry
    have hlen : s'.length = stack.length + 1 := by rw [try_apply_num_eq htry]; rfl
    rw [swap_remove_length]
    omega
  · intro dumb stack o s' numbers htry
    have hlen := try_apply_op_length htry
    omega

/-- C9 (witness): a concrete number step (`[5]`, index 0, pushing 5 onto an
empty stack) and a concrete operator step (Add on stack `[1, 2]`) both
strictly decrease the measure. -/
theorem C9_witness :
    2 * (swap_remove [5] 0).length + ([5] : List Nat).length <
      2 * ([5] : List Nat).length + ([] : List Nat).length ∧
    2 * ([9] : List Nat).length + ([3] : List Nat).length <
      2 * ([9] : List Nat).length + ([1, 2] : List Nat).length :=
  ⟨C9_theorem.1 true [] 5 [5] [5] 0 (by decide) (by rfl),
   C9_theorem.2 true [1, 2] Op.Add [3] [9] (by rfl)⟩

/-- C10 (counterexample): with numbers `[4294967295, 4294967295]` the search
reaches an Add whose mathematical sum `8589934590` is at least `2 ^ 32`; the
`u32` addition inside `try_apply_legal` overflows, wrapping to `4294967294`
(a panic under debug assertions), so the arithmetic inside the search is NOT
total-without-overflow over every `u32` input. -/
theorem C10_counterexample :
    try_apply_legal [4294967295, 4294967295] (Token.Op Op.Add) = some [4294967294] ∧
    4294967295 + 4294967295 = 8589934590 ∧
    u32Mod ≤ 8589934590 ∧
    (8589934590 : Nat) ≠ 4294967294 ∧
    calc_postfix_sequences_first [4294967295, 4294967295] 4294967294 true =
      some [Token.Num 4294967295, Token.Num 4294967295, Token.Op Op.Add] :=
  ⟨rfl, rfl, by decide, by decide, first_wrap_dumb⟩

/-- C10 (amended): every accepted operator application is total apart from
`u32` overflow: subtraction is accepted only when it cannot underflow,
division only with a nonzero, exactly-dividing divisor, while addition and
multiplication compute their result modulo `2 ^ 32` and may therefore
overflow for large inputs; no other failure path exists in the search
arithmetic. -/
theorem C10_theorem :
    ∀ (dumb : Bool) (stack s' : List Nat) (o : Op),
      try_apply dumb stack (Token.Op o) = some s' →
      ∃ a b rest, stack = b :: a :: rest ∧
        (o = Op.Sub → b ≤ a ∧ s' = (a - b) :: rest) ∧
        (o = Op.Div → b ≠ 0 ∧ a % b = 0 ∧ s' = (a / b) :: rest) ∧
        (o = Op.Add → s' = (a + b) % u32Mod :: rest) ∧
        (o = Op.Mul → s' = (a * b) % u32Mod :: rest) := by
  intro dumb stack s' o h
  obtain ⟨a, b, rest, hstack, hres⟩ := try_apply_op_eq h
  refine ⟨a, b, rest, hstack, ?_, ?_, ?_, ?_⟩ <;> intro ho <;> subst ho <;>
    simp only [] at hres <;> exact hres

/-- C10 (witness): the amended characterisation applied to Sub on the stack
`[2, 3]` (operand0 = 3, operand1 = 2). -/
theorem C10_witness :
    ∃ a b rest, ([2, 3] : List Nat) = b :: a :: rest ∧
      (Op.Sub = Op.Sub → b ≤ a ∧ [1] = (a - b) :: rest) ∧
      (Op.Sub = Op.Div → b ≠ 0 ∧ a % b = 0 ∧ [1] = (a / b) :: rest) ∧
      (Op.Sub = Op.Add → [1] = (a + b) % u32Mod :: rest) ∧
      (Op.Sub = Op.Mul → [1] = (a * b) % u32Mod :: rest) :=
  C10_theorem true [2, 3] [1] Op.Sub (by rfl)
